import Mathlib

/-!
Shallow embedding of the core logic of the Family-Tree-App repository
(src/index.tsx and the unnamed source file, whose core sections are
identical): the pure tree-mutation functions, the generation-assignment
BFS `computeGenerations`, and the coordinate-layout computation.

JavaScript `Record<string, T>` objects are modelled as insertion-ordered
association lists (`Rec T`): `recLookup` models property access,
`recSet` models property assignment (overwrite in place for an existing
key, append for a fresh one, exactly as JS objects behave), and
`recDelete` models the `delete` operator.  The BFS `while` loop is
embedded with explicit fuel; a theorem below proves the chosen fuel
always suffices, which is the termination argument of the source.
Coordinates use `ℚ`; every arithmetic operation performed by the source
on coordinates (integer products, sums, halving) is exact in IEEE
doubles at realistic tree sizes, so the rational model is faithful.
-/

-- § Data model (src/index.tsx lines 21-50)

inductive Gender
  | male
  | female
deriving DecidableEq

structure Person where
  id : String
  name : String
  gender : Gender
  birthYear : Option Int := none
  deathYear : Option Int := none
  notes : Option String := none
  -- field `external` in the source; renamed since `external` clashes with Lean keywords
  isExternal : Option Bool := none
  email : Option String := none
  phone : Option String := none
deriving DecidableEq

structure Marriage where
  id : String
  spouse1Id : String
  spouse2Id : String
  marriageYear : Option Int := none
deriving DecidableEq

structure ChildLink where
  marriageId : String
  personId : String
deriving DecidableEq

-- § JS object (string-keyed record) model

abbrev Rec (α : Type) := List (String × α)

def recLookup {α : Type} (l : Rec α) (k : String) : Option α :=
  (l.find? (fun e => e.1 == k)).map (·.2)

def recKeys {α : Type} (l : Rec α) : List String :=
  l.map (·.1)

def recValues {α : Type} (l : Rec α) : List α :=
  l.map (·.2)

def recSet {α : Type} : Rec α → String → α → Rec α
  | [], k, v => [(k, v)]
  | e :: es, k, v => if e.1 == k then (k, v) :: es else e :: recSet es k v

def recDelete {α : Type} (l : Rec α) (k : String) : Rec α :=
  l.filter (fun e => e.1 != k)

structure FamilyTree where
  persons : Rec Person
  marriages : Rec Marriage
  children : List ChildLink
deriving DecidableEq

-- § Tree mutation functions (src/index.tsx lines 62-107)

def updatePerson (tree : FamilyTree) (person : Person) : FamilyTree :=
  { tree with persons := recSet tree.persons person.id person }

def addPerson (tree : FamilyTree) (person : Person) : FamilyTree :=
  { tree with persons := recSet tree.persons person.id person }

def addMarriage (tree : FamilyTree) (marriage : Marriage) : FamilyTree :=
  { tree with marriages := recSet tree.marriages marriage.id marriage }

def addChild (tree : FamilyTree) (marriageId personId : String) : FamilyTree :=
  if tree.children.any (fun link => link.marriageId == marriageId && link.personId == personId) then
    tree
  else
    { tree with children := tree.children ++ [⟨marriageId, personId⟩] }

def deletePerson (tree : FamilyTree) (personId : String) : FamilyTree :=
  let newPersons := recDelete tree.persons personId
  let newMarriages := tree.marriages.filter
    (fun e => !(e.2.spouse1Id == personId || e.2.spouse2Id == personId))
  let newChildren := tree.children.filter
    (fun link => link.personId != personId && (recLookup newMarriages link.marriageId).isSome)
  { persons := newPersons, marriages := newMarriages, children := newChildren }

def getChildrenOfMarriage (tree : FamilyTree) (marriageId : String) : List String :=
  (tree.children.filter (fun link => link.marriageId == marriageId)).map (·.personId)

def getParentsOfPerson (tree : FamilyTree) (personId : String) : List String :=
  match tree.children.find? (fun l => l.personId == personId) with
  | none => []
  | some link =>
    match recLookup tree.marriages link.marriageId with
    | none => []
    | some marriage => ([marriage.spouse1Id, marriage.spouse2Id]).filter (fun id => id != "")

-- § computeGenerations (src/index.tsx lines 120-167)

/-- The spouse of `id` in marriage `m`: `m.spouse1Id === id ? m.spouse2Id : m.spouse1Id`. -/
def spouseOf (m : Marriage) (id : String) : String :=
  if m.spouse1Id == id then m.spouse2Id else m.spouse1Id

/-- `Object.values(tree.marriages).filter(m => m.spouse1Id === id || m.spouse2Id === id)`. -/
def personMarriages (tree : FamilyTree) (id : String) : List Marriage :=
  (recValues tree.marriages).filter (fun m => m.spouse1Id == id || m.spouse2Id == id)

/-- The parent-discovery part of the loop body: if `id` is a child in some
ChildLink whose marriage exists, both (truthy) spouse ids of that marriage are
candidate discoveries at level `level - 1`. -/
def parentAttempts (tree : FamilyTree) (id : String) (level : Int) : List (String × Int) :=
  match tree.children.find? (fun link => link.personId == id) with
  | none => []
  | some link =>
    match recLookup tree.marriages link.marriageId with
    | none => []
    | some marriage =>
      (if marriage.spouse1Id != "" then [(marriage.spouse1Id, level - 1)] else []) ++
      (if marriage.spouse2Id != "" then [(marriage.spouse2Id, level - 1)] else [])

/-- All discovery attempts made by one iteration of the BFS `while` loop when
`{id, level}` is dequeued, in source order: for each marriage of `id`, first
the (truthy) spouse at the same level, then every child of that marriage at
`level + 1`; finally the parents of `id` at `level - 1`.  Which attempts
actually fire depends on the visited set, handled by `discoverAll`. -/
def discoveryAttempts (tree : FamilyTree) (id : String) (level : Int) : List (String × Int) :=
  ((personMarriages tree id).flatMap (fun m =>
    (if spouseOf m id != "" then [(spouseOf m id, level)] else []) ++
    (getChildrenOfMarriage tree m.id).map (fun c => (c, level + 1)))) ++
  parentAttempts tree id level

/-- Sequentially apply discovery attempts: an attempt `(pid, lvl)` whose id is
not yet visited marks it visited, records `generations[pid] = lvl`, and pushes
`(pid, lvl)` onto the queue (returned as the list of new queue entries, in
push order); an already-visited id is skipped. -/
def discoverAll :
    List (String × Int) → Finset String → Rec Int →
    List (String × Int) × Finset String × Rec Int
  | [], visited, gens => ([], visited, gens)
  | (pid, lvl) :: rest, visited, gens =>
    if pid ∈ visited then discoverAll rest visited gens
    else
      let r := discoverAll rest (insert pid visited) (recSet gens pid lvl)
      ((pid, lvl) :: r.1, r.2.1, r.2.2)

/-- Every id the BFS can ever discover: spouse ids of marriages and person ids
of child links. -/
def candidates (tree : FamilyTree) : Finset String :=
  ((recValues tree.marriages).flatMap (fun m => [m.spouse1Id, m.spouse2Id]) ++
    tree.children.map (·.personId)).toFinset

/-- Fuel sufficient for the BFS loop (proved below): the measure
`2 * |unvisited candidates| + |queue|` starts at most here and strictly
decreases every iteration. -/
def bfsFuel (tree : FamilyTree) : Nat :=
  2 * (candidates tree).card + 1

/-- The BFS `while (queue.length > 0)` loop, with explicit fuel.  Returns the
generations record together with the unspent fuel (so the number of loop
iterations performed is observable); `none` on fuel exhaustion, which
is proved unreachable with `bfsFuel` below. -/
def bfsAux (tree : FamilyTree) :
    Nat → List (String × Int) → Finset String → Rec Int → Option (Rec Int × Nat)
  | fuel, [], _, gens => some (gens, fuel)
  | 0, _ :: _, _, _ => none
  | fuel + 1, (id, level) :: rest, visited, gens =>
    let r := discoverAll (discoveryAttempts tree id level) visited gens
    bfsAux tree fuel (rest ++ r.1) r.2.1 r.2.2

def computeGenerations (tree : FamilyTree) (startId : String) : Rec Int :=
  match recLookup tree.persons startId with
  | none => []
  | some _ =>
    match bfsAux tree (bfsFuel tree) [(startId, 0)] {startId} (recSet [] startId 0) with
    | none => []
    | some (gens, _) => gens

-- § Layout (src/unnamed/part_000 lines 366-413)

structure Coord where
  x : ℚ
  y : ℚ
deriving DecidableEq

def HORIZONTAL_SPACING : ℚ := 300

def VERTICAL_SPACING : ℚ := 260

/-- Root choice of the layout: `Object.keys(tree.persons)[0]`.  With an empty
person mapping the source passes `undefined`, which fails the person lookup in
`computeGenerations`; `""` plays that role here (it is only ever used when the
person mapping is empty, where every lookup fails). -/
def layoutRootId (tree : FamilyTree) : String :=
  (recKeys tree.persons).headD ""

def layoutGens (tree : FamilyTree) : Rec Int :=
  computeGenerations tree (layoutRootId tree)

/-- `gens[id]` as used by the bucket builder (always a present key there). -/
def genOf (gens : Rec Int) (id : String) : Int :=
  (recLookup gens id).getD 0

/-- Stable insertion into a list sorted ascending by `key`, placing the new
element after existing elements with an equal key (JS `sort` is stable). -/
def insertSorted (key : String → Int) (x : String) : List String → List String
  | [] => [x]
  | y :: ys => if key x < key y then x :: y :: ys else y :: insertSorted key x ys

/-- `Object.keys(gens).sort((a, b) => gens[a] - gens[b])`. -/
def sortIds (gens : Rec Int) (l : List String) : List String :=
  l.foldl (fun acc x => insertSorted (genOf gens) x acc) []

/-- `peopleByGen[gen] = peopleByGen[gen] ?? []; peopleByGen[gen].push(id)`:
append `id` to the bucket for `gen`, creating the bucket if absent. -/
def bucketPush : List (Int × List String) → Int → String → List (Int × List String)
  | [], gen, id => [(gen, [id])]
  | (g, xs) :: rest, gen, id =>
    if g == gen then (g, xs ++ [id]) :: rest else (g, xs) :: bucketPush rest gen id

/-- The body of the spouse-adjacency loop: a (truthy) spouse that is not yet
placed and whose generation is exactly `gen` is appended to the same bucket. -/
def spouseStep (gens : Rec Int) (gen : Int) (id : String)
    (st' : List (Int × List String) × Finset String) (m : Marriage) :
    List (Int × List String) × Finset String :=
  let spouseId := spouseOf m id
  if spouseId ≠ "" ∧ spouseId ∉ st'.2 ∧ recLookup gens spouseId = some gen then
    (bucketPush st'.1 gen spouseId, insert spouseId st'.2)
  else st'

/-- One step of `sortedIds.forEach(...)`: skip an already-placed id, otherwise
put it in its generation's bucket, then append each not-yet-placed spouse that
shares this exact generation. -/
def placeOne (tree : FamilyTree) (gens : Rec Int)
    (st : List (Int × List String) × Finset String) (id : String) :
    List (Int × List String) × Finset String :=
  if id ∈ st.2 then st
  else
    (personMarriages tree id).foldl (spouseStep gens (genOf gens id) id)
      (bucketPush st.1 (genOf gens id) id, insert id st.2)

def layoutBuckets (tree : FamilyTree) (gens : Rec Int) (sortedIds : List String) :
    List (Int × List String) × Finset String :=
  sortedIds.foldl (placeOne tree gens) ([], ∅)

/-- `x = idx * HORIZONTAL_SPACING - rowWidth / 2` with
`rowWidth = (ids.length - 1) * HORIZONTAL_SPACING`. -/
def rowX (n : Nat) (idx : Nat) : ℚ :=
  (idx : ℚ) * HORIZONTAL_SPACING - ((n : ℚ) - 1) * HORIZONTAL_SPACING / 2

def placeRowAux (gen : Int) (n : Nat) : Nat → List String → Rec Coord → Rec Coord
  | _, [], pc => pc
  | idx, id :: rest, pc =>
    placeRowAux gen n (idx + 1) rest
      (recSet pc id ⟨rowX n idx, (gen : ℚ) * VERTICAL_SPACING⟩)

/-- `ids.forEach((id, idx) => { personCoords[id] = {x, y: rowY} })` for one
generation bucket. -/
def placeRow (gen : Int) (ids : List String) (pc : Rec Coord) : Rec Coord :=
  placeRowAux gen ids.length 0 ids pc

def layoutPersonCoords (buckets : List (Int × List String)) : Rec Coord :=
  buckets.foldl (fun pc b => placeRow b.1 b.2 pc) []

def marriageMidpoint (p1 p2 : Coord) : Coord :=
  ⟨(p1.x + p2.x) / 2, (p1.y + p2.y) / 2⟩

/-- The body of the marriage-coordinate `forEach`: if both spouses have person
coordinates, assign the marriage the midpoint, otherwise leave the map as is. -/
def marriageCoordStep (pc : Rec Coord) (mc : Rec Coord) (m : Marriage) : Rec Coord :=
  match recLookup pc m.spouse1Id, recLookup pc m.spouse2Id with
  | some p1, some p2 => recSet mc m.id (marriageMidpoint p1 p2)
  | _, _ => mc

/-- `Object.values(tree.marriages).forEach(m => { if (p1 && p2)
marriageCoords[m.id] = midpoint })`. -/
def layoutMarriageCoords (tree : FamilyTree) (pc : Rec Coord) : Rec Coord :=
  (recValues tree.marriages).foldl (marriageCoordStep pc) []

structure Layout where
  personCoords : Rec Coord
  marriageCoords : Rec Coord
  gens : Rec Int
deriving DecidableEq

def layout (tree : FamilyTree) : Layout :=
  let gens := layoutGens tree
  let sortedIds := sortIds gens (recKeys gens)
  let st := layoutBuckets tree gens sortedIds
  let pc := layoutPersonCoords st.1
  { personCoords := pc, marriageCoords := layoutMarriageCoords tree pc, gens := gens }

/-- The x-coordinates of a row of `n` ids, in bucket order. -/
def rowXs (n : Nat) : List ℚ :=
  (List.range n).map (rowX n)

/-- The bucket-builder invariant: an id is marked placed exactly when it sits
in some bucket. -/
def stSync (st : List (Int × List String) × Finset String) : Prop :=
  ∀ a : String, a ∈ st.2 ↔ ∃ b ∈ st.1, a ∈ b.2

-- § Concrete example trees

def simplePerson (i : String) : Person :=
  { id := i, name := i, gender := Gender.male }

/-- The five-person scenario of the spec: root `R` married to `S` (marriage
`M1` with child `C`), `C` married to `D` (marriage `M2` with child `E`). -/
def treeRSCDE : FamilyTree :=
  { persons := [("R", simplePerson "R"), ("S", simplePerson "S"), ("C", simplePerson "C"),
                ("D", simplePerson "D"), ("E", simplePerson "E")],
    marriages := [("M1", ⟨"M1", "R", "S", none⟩), ("M2", ⟨"M2", "C", "D", none⟩)],
    children := [⟨"M1", "C"⟩, ⟨"M2", "E"⟩] }

/-- `A` is married to `B` (marriage `M1`, child `C`) and also to their own
child `C` (marriage `M2`). -/
def treeSelfMarriage : FamilyTree :=
  { persons := [("A", simplePerson "A"), ("B", simplePerson "B"), ("C", simplePerson "C")],
    marriages := [("M1", ⟨"M1", "A", "B", none⟩), ("M2", ⟨"M2", "A", "C", none⟩)],
    children := [⟨"M1", "C"⟩] }

/-- A single person `A` whose marriage record references an id `B` that is not
in the person mapping. -/
def treeDanglingSpouse : FamilyTree :=
  { persons := [("A", simplePerson "A")],
    marriages := [("M1", ⟨"M1", "A", "B", none⟩)],
    children := [] }

/-- A childless couple `A`, `B` married via `M`. -/
def treeCouple : FamilyTree :=
  { persons := [("A", simplePerson "A"), ("B", simplePerson "B")],
    marriages := [("M", ⟨"M", "A", "B", none⟩)],
    children := [] }

-- § Basic lemmas about the record model

theorem recLookup_nil {α : Type} (k : String) : recLookup ([] : Rec α) k = none := rfl

theorem recLookup_cons {α : Type} (e : String × α) (l : Rec α) (k : String) :
    recLookup (e :: l) k = if e.1 = k then some e.2 else recLookup l k := by
  by_cases h : e.1 = k
  · simp [recLookup, List.find?, h]
  · have hb : (e.1 == k) = false := beq_eq_false_iff_ne.mpr h
    simp [recLookup, List.find?, hb, h]

theorem recKeys_cons {α : Type} (e : String × α) (l : Rec α) :
    recKeys (e :: l) = e.1 :: recKeys l := rfl

theorem recLookup_isSome_iff {α : Type} (l : Rec α) (k : String) :
    (recLookup l k).isSome ↔ k ∈ recKeys l := by
  induction l with
  | nil => simp [recLookup, recKeys]
  | cons e es ih =>
    rw [recLookup_cons, recKeys_cons]
    by_cases h : e.1 = k
    · simp [h]
    · simp [h, Ne.symm h, List.mem_cons, ih]

theorem recLookup_recSet_self {α : Type} (l : Rec α) (k : String) (v : α) :
    recLookup (recSet l k v) k = some v := by
  induction l with
  | nil => simp [recSet, recLookup, List.find?]
  | cons e es ih =>
    by_cases h : e.1 = k
    · simp [recSet, h, recLookup_cons]
    · simp only [recSet, beq_iff_eq, h, if_false]
      rw [recLookup_cons, if_neg h]
      exact ih

theorem recLookup_recSet_ne {α : Type} (l : Rec α) (k k' : String) (v : α) (h : k ≠ k') :
    recLookup (recSet l k v) k' = recLookup l k' := by
  induction l with
  | nil => simp [recSet, recLookup_cons, recLookup_nil, h]
  | cons e es ih =>
    by_cases he : e.1 = k
    · simp only [recSet, beq_iff_eq, he, if_true]
      rw [recLookup_cons, recLookup_cons]
      simp [he, h]
    · simp only [recSet, beq_iff_eq, he, if_false]
      rw [recLookup_cons, recLookup_cons]
      by_cases h2 : e.1 = k' <;> simp [h2, ih]

theorem mem_recKeys_recSet {α : Type} (l : Rec α) (k k' : String) (v : α) :
    k' ∈ recKeys (recSet l k v) ↔ k' = k ∨ k' ∈ recKeys l := by
  induction l with
  | nil => simp [recSet, recKeys]
  | cons e es ih =>
    by_cases he : e.1 = k
    · simp only [recSet, beq_iff_eq, he, if_true, recKeys_cons, List.mem_cons]
      tauto
    · simp only [recSet, beq_iff_eq, he, if_false, recKeys_cons, List.mem_cons, ih]
      tauto

theorem filter_idem {α : Type} (p : α → Bool) (l : List α) :
    (l.filter p).filter p = l.filter p := by
  induction l with
  | nil => rfl
  | cons a as ih =>
    by_cases h : p a <;> simp [List.filter, h, ih]

-- § C6: generation computation on an absent root

/-- Claim C6: for every tree T and every id startId that is not a key of T's
person mapping, computeGenerations(T, startId) returns the empty mapping. -/
theorem computeGenerations_absent_root (tree : FamilyTree) (startId : String)
    (h : recLookup tree.persons startId = none) :
    computeGenerations tree startId = [] := by
  simp [computeGenerations, h]

theorem computeGenerations_absent_root_witness :
    recLookup (FamilyTree.mk [] [] []).persons "x" = none ∧
      computeGenerations (FamilyTree.mk [] [] []) "x" = [] :=
  ⟨rfl, computeGenerations_absent_root (FamilyTree.mk [] [] []) "x" rfl⟩

-- § C3: the concrete five-person generation scenario

/-- Claim C3: on the concrete five-person tree (root R married to S, marriage
(R,S) has child C, C married to D, marriage (C,D) has child E),
computeGenerations(tree, R) returns exactly {R:0, S:0, C:1, D:1, E:2}. -/
theorem computeGenerations_concrete_scenario :
    computeGenerations treeRSCDE "R" =
      [("R", 0), ("S", 0), ("C", 1), ("D", 1), ("E", 2)] := by
  decide

-- § C4: addChild is idempotent

/-- Claim C4: addChild is idempotent — adding the same (marriageId, personId)
twice equals adding it once, and starting from a tree with no matching
ChildLink, two insertions leave exactly one matching ChildLink. -/
theorem addChild_idempotent (tree : FamilyTree) (marriageId personId : String) :
    addChild (addChild tree marriageId personId) marriageId personId =
        addChild tree marriageId personId ∧
      (tree.children.countP
          (fun link => link.marriageId == marriageId && link.personId == personId) = 0 →
        ((addChild (addChild tree marriageId personId) marriageId personId).children.countP
          (fun link => link.marriageId == marriageId && link.personId == personId)) = 1) := by
  by_cases h : tree.children.any
      (fun link => link.marriageId == marriageId && link.personId == personId)
  · have h1 : addChild tree marriageId personId = tree := by
      simp [addChild, h]
    refine ⟨by simp only [h1], fun hzero => absurd h ?_⟩
    rw [List.any_eq_true]
    rintro ⟨link, hmem, hp⟩
    have := List.countP_eq_zero.mp hzero link hmem
    exact this hp
  · have h1 : addChild tree marriageId personId =
        { tree with children := tree.children ++ [⟨marriageId, personId⟩] } := by
      simp [addChild, h]
    have h2 : (tree.children ++ [(⟨marriageId, personId⟩ : ChildLink)]).any
        (fun link => link.marriageId == marriageId && link.personId == personId) = true := by
      rw [List.any_eq_true]
      exact ⟨⟨marriageId, personId⟩, by simp, by simp⟩
    have h3 : addChild (addChild tree marriageId personId) marriageId personId =
        addChild tree marriageId personId := by
      rw [h1]
      simp [addChild, h2]
    refine ⟨h3, fun hzero => ?_⟩
    rw [h3, h1]
    simp only [List.countP_append]
    rw [hzero]
    simp [List.countP, List.countP.go]

theorem addChild_idempotent_witness :
    treeCouple.children.countP
        (fun link => link.marriageId == "M" && link.personId == "c") = 0 ∧
      addChild (addChild treeCouple "M" "c") "M" "c" = addChild treeCouple "M" "c" ∧
      (addChild (addChild treeCouple "M" "c") "M" "c").children.countP
        (fun link => link.marriageId == "M" && link.personId == "c") = 1 :=
  ⟨by decide, (addChild_idempotent treeCouple "M" "c").1,
    (addChild_idempotent treeCouple "M" "c").2 (by decide)⟩

-- § C1: deletePerson cascade completeness

theorem recLookup_recDelete_self {α : Type} (l : Rec α) (k : String) :
    recLookup (recDelete l k) k = none := by
  induction l with
  | nil => rfl
  | cons e es ih =>
    simp only [recDelete] at ih ⊢
    by_cases h : e.1 = k
    · simpa [List.filter_cons, h] using ih
    · have hb : (e.1 != k) = true := bne_iff_ne.mpr h
      simp [List.filter_cons, hb, recLookup_cons, h, ih]

/-- Claim C1: deleting a person X removes X from the person mapping, removes
every marriage with X as a spouse, keeps only child links whose marriage
survives, and keeps no child link for X itself. -/
theorem deletePerson_cascade_complete (tree : FamilyTree) (X : String)
    (_h : (recLookup tree.persons X).isSome) :
    recLookup (deletePerson tree X).persons X = none ∧
      (∀ m ∈ recValues (deletePerson tree X).marriages, m.spouse1Id ≠ X ∧ m.spouse2Id ≠ X) ∧
      (∀ link ∈ (deletePerson tree X).children,
        (recLookup (deletePerson tree X).marriages link.marriageId).isSome) ∧
      (∀ link ∈ (deletePerson tree X).children, link.personId ≠ X) := by
  refine ⟨?_, ?_, ?_, ?_⟩
  · exact recLookup_recDelete_self tree.persons X
  · intro m hm
    simp only [deletePerson, recValues, List.mem_map] at hm
    obtain ⟨e, he, rfl⟩ := hm
    have hf := (List.mem_filter.mp he).2
    simp only [Bool.not_eq_true', Bool.or_eq_false_iff, beq_eq_false_iff_ne] at hf
    exact hf
  · intro link hlink
    simp only [deletePerson] at hlink ⊢
    have hf := (List.mem_filter.mp hlink).2
    simp only [Bool.and_eq_true] at hf
    exact hf.2
  · intro link hlink
    simp only [deletePerson] at hlink
    have hf := (List.mem_filter.mp hlink).2
    simp only [Bool.and_eq_true, bne_iff_ne] at hf
    exact hf.1

theorem deletePerson_cascade_complete_witness :
    (recLookup treeRSCDE.persons "C").isSome ∧
      (recLookup (deletePerson treeRSCDE "C").persons "C" = none ∧
        (∀ m ∈ recValues (deletePerson treeRSCDE "C").marriages,
          m.spouse1Id ≠ "C" ∧ m.spouse2Id ≠ "C") ∧
        (∀ link ∈ (deletePerson treeRSCDE "C").children,
          (recLookup (deletePerson treeRSCDE "C").marriages link.marriageId).isSome) ∧
        (∀ link ∈ (deletePerson treeRSCDE "C").children, link.personId ≠ "C")) :=
  ⟨by decide, deletePerson_cascade_complete treeRSCDE "C" (by decide)⟩

-- § C10: deletePerson is idempotent

/-- Claim C10: deleting the same person twice equals deleting once — after the
first cascade X is gone, no marriage references X, and every surviving child
link's marriage survives, so the second deletion filters nothing. -/
theorem deletePerson_idempotent (tree : FamilyTree) (X : String) :
    deletePerson (deletePerson tree X) X = deletePerson tree X := by
  simp only [deletePerson, FamilyTree.mk.injEq]
  refine ⟨?_, ?_, ?_⟩
  · simp only [recDelete]
    exact filter_idem _ _
  · exact filter_idem _ _
  · rw [filter_idem]
    exact filter_idem _ _

-- § C2: spouse generations

/-- Counterexample to claim C2: in `treeSelfMarriage`, marriage `M2` joins `A`
and `C`, both of which receive generations from `computeGenerations(tree, A)`,
yet their generations differ (`A` is generation 0, its spouse-and-child `C` is
generation 1, discovered first through the child edge of `M1`). -/
theorem spouses_unequal_generation_cex :
    recLookup treeSelfMarriage.marriages "M2" = some ⟨"M2", "A", "C", none⟩ ∧
      (recLookup (computeGenerations treeSelfMarriage "A") "A").isSome ∧
      (recLookup (computeGenerations treeSelfMarriage "A") "C").isSome ∧
      recLookup (computeGenerations treeSelfMarriage "A") "A" ≠
        recLookup (computeGenerations treeSelfMarriage "A") "C" := by
  decide

/-- Once an id is visited, later discovery attempts never touch its
generations entry. -/
theorem discoverAll_lookup_visited (attempts : List (String × Int)) (visited : Finset String)
    (gens : Rec Int) (a : String) (ha : a ∈ visited) :
    recLookup (discoverAll attempts visited gens).2.2 a = recLookup gens a := by
  induction attempts generalizing visited gens with
  | nil => rfl
  | cons p rest ih =>
    obtain ⟨pid, lvl⟩ := p
    by_cases hv : pid ∈ visited
    · simp only [discoverAll, hv, if_true]
      exact ih visited gens ha
    · simp only [discoverAll, hv, if_false]
      rw [ih (insert pid visited) _ (Finset.mem_insert_of_mem ha)]
      exact recLookup_recSet_ne _ _ _ _ (fun h => hv (h ▸ ha))

/-- If the first attempt targeting an unvisited id `s` carries level `L`,
then after the whole batch of attempts is processed `s` is recorded at
generation `L`. -/
theorem discoverAll_lookup_first (attempts : List (String × Int)) (visited : Finset String)
    (gens : Rec Int) (s : String) (L : Int) (hs : s ∉ visited)
    (hfind : attempts.find? (fun p => p.1 == s) = some (s, L)) :
    recLookup (discoverAll attempts visited gens).2.2 s = some L := by
  induction attempts generalizing visited gens with
  | nil => simp [List.find?] at hfind
  | cons p rest ih =>
    obtain ⟨pid, lvl⟩ := p
    by_cases hps : pid = s
    · subst hps
      simp only [List.find?, beq_self_eq_true, Option.some.injEq, Prod.mk.injEq,
        true_and] at hfind
      have hlvl : lvl = L := by simpa using hfind
      subst hlvl
      simp only [discoverAll, hs, if_false]
      rw [discoverAll_lookup_visited _ _ _ _ (Finset.mem_insert_self pid visited)]
      exact recLookup_recSet_self _ _ _
    · simp only [List.find?, show (pid == s) = false from beq_eq_false_iff_ne.mpr hps] at hfind
      by_cases hv : pid ∈ visited
      · simp only [discoverAll, hv, if_true]
        exact ih visited gens hs hfind
      · simp only [discoverAll, hv, if_false]
        exact ih (insert pid visited) _ (by simp [hs, Ne.symm hps]) hfind

/-- Claim C2 amended: when the BFS dequeues a person at level `L`, any id `s`
that is still unvisited and whose first discovery attempt in that iteration
carries level `L` — which, by construction of `discoveryAttempts`, happens
exactly when that first attempt is a spouse edge of the dequeued person
(children carry `L+1` and parents `L-1`) — is assigned generation `L`, equal
to its partner's.  Equality of the two spouses' generations in the final
mapping is NOT guaranteed in general (a person married to their own child is a
counterexample):
it holds only when the spouse is first reached through the marriage edge. -/
theorem spouse_discovery_assigns_partner_level (tree : FamilyTree) (id : String) (L : Int)
    (visited : Finset String) (gens : Rec Int) (s : String) (hs : s ∉ visited)
    (hfind : (discoveryAttempts tree id L).find? (fun p => p.1 == s) = some (s, L)) :
    recLookup (discoverAll (discoveryAttempts tree id L) visited gens).2.2 s = some L :=
  discoverAll_lookup_first _ _ _ _ _ hs hfind

theorem spouse_discovery_assigns_partner_level_witness :
    ("B" ∉ ({"A"} : Finset String)) ∧
      (discoveryAttempts treeCouple "A" 0).find? (fun p => p.1 == "B") = some ("B", 0) ∧
      recLookup
        (discoverAll (discoveryAttempts treeCouple "A" 0) {"A"} (recSet [] "A" 0)).2.2 "B" =
        some 0 :=
  ⟨by decide, by decide,
    spouse_discovery_assigns_partner_level treeCouple "A" 0 {"A"} (recSet [] "A" 0) "B"
      (by decide) (by decide)⟩

-- § C5: BFS termination

theorem recLookup_some_mem_values {α : Type} (l : Rec α) (k : String) (v : α)
    (h : recLookup l k = some v) : v ∈ recValues l := by
  rw [recLookup] at h
  obtain ⟨e, he, rfl⟩ := Option.map_eq_some'.mp h
  exact List.mem_map_of_mem _ (List.mem_of_find?_eq_some he)

theorem mem_candidates_of_marriage (tree : FamilyTree) (m : Marriage)
    (hm : m ∈ recValues tree.marriages) :
    m.spouse1Id ∈ candidates tree ∧ m.spouse2Id ∈ candidates tree := by
  constructor <;>
    exact List.mem_toFinset.mpr
      (List.mem_append.mpr (Or.inl (List.mem_flatMap.mpr ⟨m, hm, by simp⟩)))

theorem mem_candidates_of_childId (tree : FamilyTree) (c : String)
    (hc : c ∈ tree.children.map (·.personId)) : c ∈ candidates tree :=
  List.mem_toFinset.mpr (List.mem_append.mpr (Or.inr hc))

theorem parentAttempts_subset (tree : FamilyTree) (id : String) (level : Int) :
    ∀ p ∈ parentAttempts tree id level, p.1 ∈ candidates tree := by
  intro p hp
  unfold parentAttempts at hp
  split at hp
  · simp at hp
  · split at hp
    · simp at hp
    · rename_i link _ marriage h2
      have hmv : marriage ∈ recValues tree.marriages :=
        recLookup_some_mem_values _ _ _ h2
      rw [List.mem_append] at hp
      rcases hp with hp | hp
      · have hps : p.1 = marriage.spouse1Id := by
          by_cases h : (marriage.spouse1Id != "") = true <;> simp [h] at hp
          rw [hp]
        rw [hps]
        exact (mem_candidates_of_marriage tree marriage hmv).1
      · have hps : p.1 = marriage.spouse2Id := by
          by_cases h : (marriage.spouse2Id != "") = true <;> simp [h] at hp
          rw [hp]
        rw [hps]
        exact (mem_candidates_of_marriage tree marriage hmv).2

theorem discoveryAttempts_subset (tree : FamilyTree) (id : String) (level : Int) :
    ∀ p ∈ discoveryAttempts tree id level, p.1 ∈ candidates tree := by
  intro p hp
  rw [discoveryAttempts, List.mem_append] at hp
  rcases hp with hp | hp
  · rw [List.mem_flatMap] at hp
    obtain ⟨m, hm, hpm⟩ := hp
    have hmv : m ∈ recValues tree.marriages := List.mem_of_mem_filter hm
    rw [List.mem_append] at hpm
    rcases hpm with hsp | hch
    · have hps : p.1 = spouseOf m id := by
        by_cases h : (spouseOf m id != "") = true <;> simp [h] at hsp
        rw [hsp]
      rw [hps, spouseOf]
      by_cases h : (m.spouse1Id == id) = true <;> simp only [h, if_true, if_false]
      · exact (mem_candidates_of_marriage tree m hmv).2
      · exact (mem_candidates_of_marriage tree m hmv).1
    · obtain ⟨c, hc, rfl⟩ := List.mem_map.mp hch
      refine mem_candidates_of_childId tree c ?_
      rw [getChildrenOfMarriage] at hc
      obtain ⟨link, hlink, rfl⟩ := List.mem_map.mp hc
      exact List.mem_map_of_mem _ (List.mem_of_mem_filter hlink)
  · exact parentAttempts_subset tree id level p hp

/-- Processing a batch of attempts whose ids all lie in a candidate set `C`
can only shrink the measure `2 * |C \ visited|` by at least the number of new
queue entries it produces. -/
theorem discoverAll_card (attempts : List (String × Int)) (C : Finset String) :
    ∀ (visited : Finset String) (gens : Rec Int), (∀ p ∈ attempts, p.1 ∈ C) →
      2 * (C \ (discoverAll attempts visited gens).2.1).card +
          (discoverAll attempts visited gens).1.length ≤
        2 * (C \ visited).card := by
  induction attempts with
  | nil => intro visited gens _; simp [discoverAll]
  | cons p rest ih =>
    intro visited gens hsub
    obtain ⟨pid, lvl⟩ := p
    by_cases hv : pid ∈ visited
    · simp only [discoverAll, hv, if_true]
      exact ih visited gens (fun q hq => hsub q (List.mem_cons_of_mem _ hq))
    · simp only [discoverAll, hv, if_false, List.length_cons]
      have hC : pid ∈ C := hsub (pid, lvl) (List.mem_cons_self _ _)
      have hmem : pid ∈ C \ visited := Finset.mem_sdiff.mpr ⟨hC, hv⟩
      have hcard : (C \ insert pid visited).card = (C \ visited).card - 1 := by
        rw [Finset.sdiff_insert, Finset.card_erase_of_mem hmem]
      have hpos : 1 ≤ (C \ visited).card := Finset.card_pos.mpr ⟨pid, hmem⟩ 
      have := ih (insert pid visited) (recSet gens pid lvl)
        (fun q hq => hsub q (List.mem_cons_of_mem _ hq))
      omega

/-- If the fuel dominates the measure `2 * |candidates \ visited| + |queue|`,
the BFS loop reaches the empty queue before running out. -/
theorem bfsAux_isSome (tree : FamilyTree) :
    ∀ (fuel : Nat) (queue : List (String × Int)) (visited : Finset String) (gens : Rec Int),
      2 * (candidates tree \ visited).card + queue.length ≤ fuel →
      (bfsAux tree fuel queue visited gens).isSome := by
  intro fuel
  induction fuel with
  | zero =>
    intro queue visited gens h
    match queue with
    | [] => simp [bfsAux]
    | q :: qs => simp [List.length_cons] at h
  | succ n ih =>
    intro queue visited gens h
    match queue with
    | [] => simp [bfsAux]
    | (id, level) :: rest =>
      simp only [bfsAux]
      apply ih
      have hcard := discoverAll_card (discoveryAttempts tree id level) (candidates tree)
        visited gens (discoveryAttempts_subset tree id level)
      simp only [List.length_cons] at h
      simp only [List.length_append]
      omega

/-- Claim C5 amended: `computeGenerations` terminates on every input — the
visited set lets each candidate id (spouse id of some marriage or person id of
some child link) be enqueued at most once, so the queue empties within
`2 * |candidates| + 1` dequeues; the bound is the number of distinct spouse
and child ids occurring in the tree, not the number of persons (a marriage may
reference an id with no Person entry, which is still enqueued). -/
theorem bfs_terminates (tree : FamilyTree) (startId : String) :
    (bfsAux tree (bfsFuel tree) [(startId, 0)] {startId} (recSet [] startId 0)).isSome := by
  apply bfsAux_isSome
  have h : (candidates tree \ {startId}).card ≤ (candidates tree).card :=
    Finset.card_le_card Finset.sdiff_subset
  simp only [bfsFuel, List.length_cons, List.length_nil]
  omega

/-- Counterexample to the iteration bound of claim C5: on a tree with exactly
one person `A` whose marriage references a dangling spouse id `B`, the BFS
performs `5 - 3 = 2` dequeue iterations (the fuel is 5 and 3 units are left),
which exceeds the number of persons in the tree (1): `B` is enqueued although
it is not in the person mapping. -/
theorem bfs_iterations_exceed_persons_cex :
    bfsAux treeDanglingSpouse (bfsFuel treeDanglingSpouse) [("A", 0)] {"A"}
        (recSet [] "A" 0) = some ([("A", 0), ("B", 0)], 3) ∧
      bfsFuel treeDanglingSpouse = 5 ∧
      treeDanglingSpouse.persons.length = 1 := by
  decide

-- § C8: row positioning within one generation bucket

theorem placeRowAux_lookup_not_mem (gen : Int) (n : Nat) :
    ∀ (ids : List String) (j : Nat) (pc : Rec Coord) (x : String), x ∉ ids →
      recLookup (placeRowAux gen n j ids pc) x = recLookup pc x := by
  intro ids
  induction ids with
  | nil => intro j pc x _; rfl
  | cons id rest ih =>
    intro j pc x hx
    rw [List.mem_cons] at hx
    push_neg at hx
    rw [placeRowAux, ih _ _ _ hx.2]
    exact recLookup_recSet_ne _ _ _ _ (Ne.symm hx.1)

theorem placeRowAux_lookup_get (gen : Int) (n : Nat) :
    ∀ (ids : List String) (j : Nat) (pc : Rec Coord) (i : Nat) (hi : i < ids.length),
      ids.Nodup →
      recLookup (placeRowAux gen n j ids pc) (ids.get ⟨i, hi⟩) =
        some ⟨rowX n (j + i), (gen : ℚ) * VERTICAL_SPACING⟩ := by
  intro ids
  induction ids with
  | nil => intro j pc i hi _; exact absurd hi (by simp)
  | cons id rest ih =>
    intro j pc i hi hnd
    rw [List.nodup_cons] at hnd
    match i with
    | 0 =>
      rw [placeRowAux]
      show recLookup _ id = _
      rw [placeRowAux_lookup_not_mem gen n rest _ _ _ hnd.1]
      rw [recLookup_recSet_self, Nat.add_zero]
    | Nat.succ i' =>
      rw [placeRowAux]
      show recLookup _ (rest.get ⟨i', _⟩) = _
      rw [ih (j + 1) _ i' (by exact Nat.lt_of_succ_lt_succ hi) hnd.2]
      have : j + 1 + i' = j + (i' + 1) := by omega
      rw [this]

theorem rowX_neg (n i : Nat) (hi : i < n) : -(rowX n i) = rowX n (n - 1 - i) := by
  match n with
  | 0 => exact absurd hi (by omega)
  | Nat.succ m =>
    have h1 : m + 1 - 1 - i = m - i := by omega
    have h2 : ((m - i : Nat) : ℚ) = (m : ℚ) - (i : ℚ) := by
      have : i ≤ m := by omega
      push_cast [this]
      ring
    rw [rowX, rowX, h1, h2]
    push_cast
    ring

theorem rowXs_symmetric (n : Nat) :
    Multiset.map (fun q : ℚ => -q) (↑(rowXs n) : Multiset ℚ) = (↑(rowXs n) : Multiset ℚ) := by
  rw [Multiset.map_coe]
  have hlist : (rowXs n).map (fun q : ℚ => -q) = (rowXs n).reverse := by
    apply List.ext_getElem
    · simp [rowXs]
    · intro i h1 h2
      have hn : i < n := by simpa [rowXs] using h2
      have hmap : ((rowXs n).map (fun q : ℚ => -q))[i] = -(rowX n i) := by
        simp [rowXs]
      have hrev : ((rowXs n).reverse)[i] = rowX n (n - 1 - i) := by
        rw [List.getElem_reverse]
        simp [rowXs]
      rw [hmap, hrev, rowX_neg n i hn]
  rw [hlist]
  exact Multiset.coe_eq_coe.mpr (List.reverse_perm _)

theorem rowX_spacing (n i : Nat) :
    rowX n (i + 1) - rowX n i = HORIZONTAL_SPACING := by
  rw [rowX, rowX]
  push_cast
  ring

/-- Claim C8: in a generation bucket of N ids (no duplicates), the id at index
i receives x-coordinate `i * S - (N-1) * S / 2` and y-coordinate
`gen * verticalSpacing`; the multiset of the row's x-coordinates is symmetric
about 0, and consecutive indices are exactly S apart. -/
theorem generation_row_layout (gen : Int) (ids : List String) (pc : Rec Coord)
    (i : Nat) (hi : i < ids.length) (hnd : ids.Nodup) :
    recLookup (placeRow gen ids pc) (ids.get ⟨i, hi⟩) =
        some ⟨rowX ids.length i, (gen : ℚ) * VERTICAL_SPACING⟩ ∧
      rowX ids.length i =
        (i : ℚ) * HORIZONTAL_SPACING - ((ids.length : ℚ) - 1) * HORIZONTAL_SPACING / 2 ∧
      Multiset.map (fun q : ℚ => -q) (↑(rowXs ids.length) : Multiset ℚ) =
        (↑(rowXs ids.length) : Multiset ℚ) ∧
      (i + 1 < ids.length → rowX ids.length (i + 1) - rowX ids.length i = HORIZONTAL_SPACING) := by
  refine ⟨?_, rfl, rowXs_symmetric ids.length, fun _ => rowX_spacing ids.length i⟩
  have h := placeRowAux_lookup_get gen ids.length ids 0 pc i hi hnd
  rw [Nat.zero_add] at h
  exact h

theorem generation_row_layout_witness :
    (0 < (["A", "B"] : List String).length) ∧ (["A", "B"] : List String).Nodup ∧
      recLookup (placeRow 0 ["A", "B"] []) "A" = some ⟨-150, 0⟩ := by
  refine ⟨by decide, by decide, ?_⟩
  have h := (generation_row_layout 0 ["A", "B"] [] 0 (by decide) (by decide)).1
  refine h.trans ?_
  simp [rowX, HORIZONTAL_SPACING, VERTICAL_SPACING]
  norm_num

-- § C7: marriage coordinates are spouse midpoints

theorem marriageCoords_fold_untouched (pc : Rec Coord) :
    ∀ (ms : List Marriage) (mc : Rec Coord) (x : String), x ∉ ms.map (·.id) →
      recLookup (ms.foldl (marriageCoordStep pc) mc) x = recLookup mc x := by
  intro ms
  induction ms with
  | nil => intro mc x _; rfl
  | cons m0 rest ih =>
    intro mc x hx
    rw [List.map_cons, List.mem_cons] at hx
    push_neg at hx
    rw [List.foldl_cons, ih _ _ hx.2]
    rw [marriageCoordStep]
    rcases recLookup pc m0.spouse1Id with _ | p1 <;> rcases recLookup pc m0.spouse2Id with _ | p2
    · rfl
    · rfl
    · rfl
    · exact recLookup_recSet_ne _ _ _ _ (Ne.symm hx.1)

theorem marriageCoords_fold_spec (pc : Rec Coord) :
    ∀ (ms : List Marriage) (mc : Rec Coord), (ms.map (·.id)).Nodup →
      (∀ m ∈ ms, recLookup mc m.id = none) →
      ∀ m ∈ ms, recLookup (ms.foldl (marriageCoordStep pc) mc) m.id =
        (match recLookup pc m.spouse1Id, recLookup pc m.spouse2Id with
          | some p1, some p2 => some (marriageMidpoint p1 p2)
          | _, _ => none) := by
  intro ms
  induction ms with
  | nil => intro mc _ _ m hm; exact absurd hm (List.not_mem_nil m)
  | cons m0 rest ih =>
    intro mc hnd hnone m hm
    rw [List.map_cons, List.nodup_cons] at hnd
    rw [List.foldl_cons]
    rcases List.mem_cons.mp hm with rfl | hmr
    · rw [marriageCoords_fold_untouched pc rest _ _ hnd.1]
      have h0 := hnone m (List.mem_cons_self _ _)
      rw [marriageCoordStep]
      rcases recLookup pc m.spouse1Id with _ | p1 <;>
        rcases recLookup pc m.spouse2Id with _ | p2
      · exact h0
      · exact h0
      · exact h0
      · exact recLookup_recSet_self _ _ _
    · refine ih _ hnd.2 ?_ m hmr
      intro m' hm'
      have hne : m'.id ≠ m0.id := by
        intro he
        exact hnd.1 (he ▸ List.mem_map_of_mem _ hm')
      rw [marriageCoordStep]
      rcases recLookup pc m0.spouse1Id with _ | p1 <;>
        rcases recLookup pc m0.spouse2Id with _ | p2
      · exact hnone m' (List.mem_cons_of_mem _ hm')
      · exact hnone m' (List.mem_cons_of_mem _ hm')
      · exact hnone m' (List.mem_cons_of_mem _ hm')
      · rw [recLookup_recSet_ne _ _ _ _ (Ne.symm hne)]
        exact hnone m' (List.mem_cons_of_mem _ hm')

/-- Claim C7: a marriage receives a coordinate in the layout output iff both of
its spouses received person coordinates, and in that case the coordinate is
exactly the arithmetic midpoint of the spouses' coordinates (marriage ids are
assumed distinct, as JS object keys make them in practice). -/
theorem marriage_coord_midpoint (tree : FamilyTree) (m : Marriage)
    (hnd : ((recValues tree.marriages).map (·.id)).Nodup)
    (hm : m ∈ recValues tree.marriages) :
    ((recLookup (layout tree).marriageCoords m.id).isSome ↔
        (recLookup (layout tree).personCoords m.spouse1Id).isSome ∧
          (recLookup (layout tree).personCoords m.spouse2Id).isSome) ∧
      (∀ p1 p2, recLookup (layout tree).personCoords m.spouse1Id = some p1 →
        recLookup (layout tree).personCoords m.spouse2Id = some p2 →
        recLookup (layout tree).marriageCoords m.id = some (marriageMidpoint p1 p2)) := by
  have h := marriageCoords_fold_spec (layout tree).personCoords (recValues tree.marriages) []
    hnd (fun _ _ => rfl) m hm
  have hmc : (layout tree).marriageCoords =
      (recValues tree.marriages).foldl (marriageCoordStep (layout tree).personCoords) [] := rfl
  rw [← hmc] at h
  rw [h]
  rcases recLookup (layout tree).personCoords m.spouse1Id with _ | p1 <;>
    rcases recLookup (layout tree).personCoords m.spouse2Id with _ | p2
  · exact ⟨by simp, by simp⟩
  · exact ⟨by simp, by simp⟩
  · exact ⟨by simp, by simp⟩
  · refine ⟨by simp, ?_⟩
    intro q1 q2 h1 h2
    rw [Option.some.injEq] at h1 h2
    rw [h1, h2]

theorem marriage_coord_midpoint_witness :
    ((recValues treeCouple.marriages).map (·.id)).Nodup ∧
      recLookup (layout treeCouple).marriageCoords "M" = some ⟨0, 0⟩ := by
  refine ⟨by decide, ?_⟩
  have h := (marriage_coord_midpoint treeCouple ⟨"M", "A", "B", none⟩ (by decide) (by decide)).2
    ⟨-150, 0⟩ ⟨150, 0⟩ (by with_unfolding_all decide) (by with_unfolding_all decide)
  exact h.trans (by norm_num [marriageMidpoint])

-- § C9: the person-coordinate domain equals the generation domain

theorem mem_bucketPush (bs : List (Int × List String)) (g : Int) (x a : String) :
    (∃ b ∈ bucketPush bs g x, a ∈ b.2) ↔ a = x ∨ ∃ b ∈ bs, a ∈ b.2 := by
  induction bs with
  | nil => simp [bucketPush]
  | cons b0 rest ih =>
    obtain ⟨g', xs⟩ := b0
    by_cases hg : g' = g
    · simp only [bucketPush, hg, beq_self_eq_true, if_true]
      simp [List.mem_cons]
      tauto
    · have hb : (g' == g) = false := by simpa using hg
      simp only [bucketPush, hb, Bool.false_eq_true, if_false]
      simp [List.mem_cons, ih]
      tauto

theorem recLookup_recSet_isSome {α : Type} (l : Rec α) (k a : String) (v : α) :
    (recLookup (recSet l k v) a).isSome ↔ a = k ∨ (recLookup l a).isSome := by
  rw [recLookup_isSome_iff, recLookup_isSome_iff, mem_recKeys_recSet]

theorem placeRowAux_isSome (gen : Int) (n : Nat) :
    ∀ (ids : List String) (j : Nat) (pc : Rec Coord) (a : String),
      (recLookup (placeRowAux gen n j ids pc) a).isSome ↔
        a ∈ ids ∨ (recLookup pc a).isSome := by
  intro ids
  induction ids with
  | nil => intro j pc a; simp [placeRowAux]
  | cons id rest ih =>
    intro j pc a
    rw [placeRowAux, ih, recLookup_recSet_isSome, List.mem_cons]
    tauto

theorem layoutPersonCoords_isSome :
    ∀ (bs : List (Int × List String)) (pc : Rec Coord) (a : String),
      (recLookup (bs.foldl (fun pc b => placeRow b.1 b.2 pc) pc) a).isSome ↔
        (∃ b ∈ bs, a ∈ b.2) ∨ (recLookup pc a).isSome := by
  intro bs
  induction bs with
  | nil => intro pc a; simp
  | cons b0 rest ih =>
    intro pc a
    rw [List.foldl_cons, ih, placeRow, placeRowAux_isSome]
    constructor
    · rintro (⟨b, hb, hab⟩ | h | h)
      · exact Or.inl ⟨b, List.mem_cons_of_mem _ hb, hab⟩
      · exact Or.inl ⟨b0, List.mem_cons_self _ _, h⟩
      · exact Or.inr h
    · rintro (⟨b, hb, hab⟩ | h)
      · rcases List.mem_cons.mp hb with rfl | hb
        · exact Or.inr (Or.inl hab)
        · exact Or.inl ⟨b, hb, hab⟩
      · exact Or.inr (Or.inr h)

theorem spouseStep_fold_sync (gens : Rec Int) (gen : Int) (id : String) :
    ∀ (ms : List Marriage) (st : List (Int × List String) × Finset String),
      stSync st → stSync (ms.foldl (spouseStep gens gen id) st) := by
  intro ms
  induction ms with
  | nil => intro st h; exact h
  | cons m rest ih =>
    intro st h
    rw [List.foldl_cons]
    refine ih _ ?_
    rw [spouseStep]
    split
    · intro a
      simp only [Finset.mem_insert, mem_bucketPush]
      rw [h a]
    · exact h

theorem spouseStep_fold_mono (gens : Rec Int) (gen : Int) (id : String) :
    ∀ (ms : List Marriage) (st : List (Int × List String) × Finset String) (a : String),
      a ∈ st.2 → a ∈ (ms.foldl (spouseStep gens gen id) st).2 := by
  intro ms
  induction ms with
  | nil => intro st a h; exact h
  | cons m rest ih =>
    intro st a h
    rw [List.foldl_cons]
    refine ih _ a ?_
    rw [spouseStep]
    split
    · exact Finset.mem_insert_of_mem h
    · exact h

theorem spouseStep_fold_bound (gens : Rec Int) (gen : Int) (id : String) :
    ∀ (ms : List Marriage) (st : List (Int × List String) × Finset String) (a : String),
      a ∈ (ms.foldl (spouseStep gens gen id) st).2 →
        a ∈ st.2 ∨ (recLookup gens a).isSome := by
  intro ms
  induction ms with
  | nil => intro st a h; exact Or.inl h
  | cons m rest ih =>
    intro st a h
    rw [List.foldl_cons] at h
    rcases ih _ a h with h | h
    · rw [spouseStep] at h
      split at h
      · rename_i hcond
        rcases Finset.mem_insert.mp h with rfl | h
        · exact Or.inr (by rw [hcond.2.2]; rfl)
        · exact Or.inl h
      · exact Or.inl h
    · exact Or.inr h

theorem placeOne_sync (tree : FamilyTree) (gens : Rec Int)
    (st : List (Int × List String) × Finset String) (id : String) (h : stSync st) :
    stSync (placeOne tree gens st id) := by
  rw [placeOne]
  split
  · exact h
  · refine spouseStep_fold_sync _ _ _ _ _ ?_
    intro a
    simp only [Finset.mem_insert, mem_bucketPush]
    rw [h a]

theorem placeOne_mono (tree : FamilyTree) (gens : Rec Int)
    (st : List (Int × List String) × Finset String) (id a : String) (h : a ∈ st.2) :
    a ∈ (placeOne tree gens st id).2 := by
  rw [placeOne]
  split
  · exact h
  · exact spouseStep_fold_mono _ _ _ _ _ a (Finset.mem_insert_of_mem h)

theorem placeOne_self (tree : FamilyTree) (gens : Rec Int)
    (st : List (Int × List String) × Finset String) (id : String) :
    id ∈ (placeOne tree gens st id).2 := by
  rw [placeOne]
  split
  · assumption
  · exact spouseStep_fold_mono _ _ _ _ _ id (Finset.mem_insert_self _ _)

theorem placeOne_bound (tree : FamilyTree) (gens : Rec Int)
    (st : List (Int × List String) × Finset String) (id a : String)
    (h : a ∈ (placeOne tree gens st id).2) :
    a ∈ st.2 ∨ a = id ∨ (recLookup gens a).isSome := by
  rw [placeOne] at h
  split at h
  · exact Or.inl h
  · rcases spouseStep_fold_bound _ _ _ _ _ a h with h | h
    · rcases Finset.mem_insert.mp h with rfl | h
      · exact Or.inr (Or.inl rfl)
      · exact Or.inl h
    · exact Or.inr (Or.inr h)

theorem placeOne_foldl_sync (tree : FamilyTree) (gens : Rec Int) :
    ∀ (l : List String) (st : List (Int × List String) × Finset String),
      stSync st → stSync (l.foldl (placeOne tree gens) st) := by
  intro l
  induction l with
  | nil => intro st h; exact h
  | cons x rest ih => intro st h; exact ih _ (placeOne_sync tree gens st x h)

theorem placeOne_foldl_mono (tree : FamilyTree) (gens : Rec Int) :
    ∀ (l : List String) (st : List (Int × List String) × Finset String) (a : String),
      a ∈ st.2 → a ∈ (l.foldl (placeOne tree gens) st).2 := by
  intro l
  induction l with
  | nil => intro st a h; exact h
  | cons x rest ih => intro st a h; exact ih _ a (placeOne_mono tree gens st x a h)

theorem placeOne_foldl_all (tree : FamilyTree) (gens : Rec Int) :
    ∀ (l : List String) (st : List (Int × List String) × Finset String) (x : String),
      x ∈ l → x ∈ (l.foldl (placeOne tree gens) st).2 := by
  intro l
  induction l with
  | nil => intro st x h; exact absurd h (List.not_mem_nil x)
  | cons y rest ih =>
    intro st x h
    rw [List.foldl_cons]
    rcases List.mem_cons.mp h with rfl | h
    · exact placeOne_foldl_mono tree gens rest _ x (placeOne_self tree gens st x)
    · exact ih _ x h

theorem placeOne_foldl_bound (tree : FamilyTree) (gens : Rec Int) :
    ∀ (l : List String) (st : List (Int × List String) × Finset String) (a : String),
      a ∈ (l.foldl (placeOne tree gens) st).2 →
        a ∈ st.2 ∨ a ∈ l ∨ (recLookup gens a).isSome := by
  intro l
  induction l with
  | nil => intro st a h; exact Or.inl h
  | cons y rest ih =>
    intro st a h
    rw [List.foldl_cons] at h
    rcases ih _ a h with h | h | h
    · rcases placeOne_bound tree gens st y a h with h | h | h
      · exact Or.inl h
      · exact Or.inr (Or.inl (h ▸ List.mem_cons_self _ _))
      · exact Or.inr (Or.inr h)
    · exact Or.inr (Or.inl (List.mem_cons_of_mem _ h))
    · exact Or.inr (Or.inr h)

theorem mem_insertSorted (key : String → Int) (x a : String) :
    ∀ l : List String, a ∈ insertSorted key x l ↔ a = x ∨ a ∈ l := by
  intro l
  induction l with
  | nil => simp [insertSorted]
  | cons y rest ih =>
    rw [insertSorted]
    split
    · simp [List.mem_cons]
    · simp only [List.mem_cons, ih]
      tauto

theorem mem_sortIds (gens : Rec Int) (a : String) :
    ∀ (l : List String) (acc : List String),
      a ∈ l.foldl (fun acc x => insertSorted (genOf gens) x acc) acc ↔ a ∈ l ∨ a ∈ acc := by
  intro l
  induction l with
  | nil => intro acc; simp
  | cons x rest ih =>
    intro acc
    rw [List.foldl_cons, ih, mem_insertSorted]
    simp [List.mem_cons]
    tauto

/-- Claim C9: the domain of the person-coordinate map equals the domain of the
generation mapping — every person that received a generation receives a
coordinate, and a person absent from the generation mapping (e.g. disconnected
from the chosen root) is absent from the coordinate map as well. -/
theorem personCoords_domain_eq_gens_domain (tree : FamilyTree) (a : String) :
    (recLookup (layout tree).personCoords a).isSome ↔
      (recLookup (layout tree).gens a).isSome := by
  have hpc : (layout tree).personCoords =
      layoutPersonCoords (layoutBuckets tree (layoutGens tree)
        (sortIds (layoutGens tree) (recKeys (layoutGens tree)))).1 := rfl
  have hg : (layout tree).gens = layoutGens tree := rfl
  rw [hpc, hg]
  rw [layoutPersonCoords, layoutPersonCoords_isSome]
  have hsync : stSync (layoutBuckets tree (layoutGens tree)
      (sortIds (layoutGens tree) (recKeys (layoutGens tree)))) := by
    refine placeOne_foldl_sync _ _ _ _ ?_
    intro x
    simp
  rw [← hsync a]
  constructor
  · intro h
    rcases h with h | h
    · rcases placeOne_foldl_bound tree (layoutGens tree) _ _ a h with h | h | h
      · simp at h
      · rw [sortIds, mem_sortIds] at h
        rcases h with h | h
        · exact (recLookup_isSome_iff _ _).mpr h
        · simp at h
      · exact h
    · simp [recLookup_nil] at h
  · intro h
    refine Or.inl ?_
    refine placeOne_foldl_all tree (layoutGens tree) _ _ a ?_
    rw [sortIds, mem_sortIds]
    exact Or.inl ((recLookup_isSome_iff _ _).mp h)
